import Mathlib

/-!
# Verification of the graph-view engine (quartz/util/theme.ts)

Shallow embedding of the interactive graph visualization engine: the
neighbourhood (BFS) builder, node/link construction and categorization,
hover highlighting, the frame loop and tween bookkeeping, teardown, the
popover fetch flow and the zoom opacity rule, together with proofs of the
specified properties.
-/

namespace DsviewGraph

/-! ## String helpers

JavaScript `String.prototype.startsWith` / `includes`, embedded over the
character list so that concrete instances evaluate. -/

/-- `listIsPre p l` : `p` is a prefix of `l` (char-by-char). -/
def listIsPre : List Char → List Char → Bool
  | [], _ => true
  | _ :: _, [] => false
  | a :: as, b :: bs => a = b && listIsPre as bs

/-- `listHasSub sub l` : `sub` occurs contiguously inside `l`
(JavaScript `includes`). -/
def listHasSub (sub : List Char) : List Char → Bool
  | [] => listIsPre sub []
  | c :: rest => listIsPre sub (c :: rest) || listHasSub sub rest

/-- JavaScript `s.startsWith p`. -/
def strStartsWith (s p : String) : Bool := listIsPre p.toList s.toList

/-- JavaScript `s.includes sub`. -/
def strIncludes (s sub : String) : Bool := listHasSub sub.toList s.toList

/-! ## Data model

`ContentDetails` is the external content-index record (title, outgoing
links, tags, originating file path); the graph code reads exactly these
fields (`details.links ?? []`, `details.tags`, `details?.title`,
`details?.filePath`).  The index `data` is the map from simplified page
slug to details, modelled as an association list (the path utility
`simplifySlug` is outside the given sources; we work directly with the
already-simplified identifiers the graph code receives). -/

structure ContentDetails where
  title : String
  links : Option (List String)
  tags : List String
  filePath : Option String
deriving DecidableEq, Repr

/-- The content index: simplified slug ↦ details. -/
abbrev Index : Type := List (String × ContentDetails)

/-- Keys of the index (`data.keys()`, i.e. `validLinks`). -/
def keysOf (data : Index) : List String := data.map (·.1)

/-- `data.get url` on the index map. -/
def lookupD (data : Index) (url : String) : Option ContentDetails :=
  (List.find? (fun p => p.1 = url) data).map (·.2)

/-- A raw link record `{source, target}` (`SimpleLinkData`). -/
structure SimpleLinkData where
  source : String
  target : String
deriving DecidableEq, Repr

/-- Tag node id: `simplifySlug("tags/" + tag)`; on these inputs the
simplification is the identity, so the id is `"tags/" ++ tag`. -/
def tagSlug (t : String) : String := "tags/" ++ t

/-- The kept tag ids of one page:
`details.tags.filter(t => !removeTags.includes(t)).map(t => simplifySlug("tags/"+t))`. -/
def localTagsOf (details : ContentDetails) (removeTags : List String) : List String :=
  (details.tags.filter (fun t => ¬ removeTags.contains t)).map tagSlug

/-- The `links` array built by the entry loop: for every page, each
outgoing link whose destination is a key of the index, followed (when
`showTags`) by one link to each kept tag of the page. -/
def buildLinks (data : Index) (showTags : Bool) (removeTags : List String) :
    List SimpleLinkData :=
  data.flatMap (fun p =>
    (((p.2.links.getD []).filter (fun dest => (keysOf data).contains dest)).map
        (fun dest => SimpleLinkData.mk p.1 dest))
      ++ (if showTags then (localTagsOf p.2 removeTags).map (fun tag => SimpleLinkData.mk p.1 tag)
          else []))

/-- The `tags` accumulator: for each page (when `showTags`), append the
kept tags not already present (`tags.push(...localTags.filter(t => !tags.includes(t)))`). -/
def tagsOf (data : Index) (showTags : Bool) (removeTags : List String) : List String :=
  if showTags then
    data.foldl
      (fun acc p => acc ++ ((localTagsOf p.2 removeTags).filter (fun t => ¬ acc.contains t)))
      []
  else []

/-! ## The neighbourhood worklist loop -/

/-- The in-band sentinel marker of the worklist. -/
def sentinel : String := "__SENTINEL"

/-- `Set.add` of a JS `Set`, keeping insertion order. -/
def addUniq (nb : List String) (x : String) : List String :=
  if nb.contains x then nb else nb ++ [x]

/-- Add all elements of `xs` to the insertion-ordered set `nb`. -/
def addAll (nb xs : List String) : List String := xs.foldl addUniq nb

/-- Undirected neighbour list of `cur`:
`links.filter(l => l.source === cur).map(l => l.target)` followed by
`links.filter(l => l.target === cur).map(l => l.source)` — exactly what
one loop iteration pushes onto the worklist. -/
def adjList (links : List SimpleLinkData) (cur : String) : List String :=
  ((links.filter (fun l => l.source = cur)).map (·.target))
    ++ ((links.filter (fun l => l.target = cur)).map (·.source))

/-- Loop state: remaining `depth`, worklist `wl`, and the
`neighbourhood` set (insertion-ordered). -/
structure BfsState where
  depth : Int
  wl : List String
  nb : List String
deriving DecidableEq, Repr

/-- One iteration of the loop body: pop the front of the worklist; a
sentinel decrements `depth` and is pushed back; any other id is added to
the neighbourhood and its undirected neighbours are pushed. -/
def bfsStep (links : List SimpleLinkData) (s : BfsState) : BfsState :=
  match s.wl with
  | [] => s
  | cur :: rest =>
    if cur = sentinel then ⟨s.depth - 1, rest ++ [sentinel], s.nb⟩
    else ⟨s.depth, rest ++ adjList links cur, addUniq s.nb cur⟩

/-- The loop condition `depth >= 0 && wl.length > 0`. -/
def bfsGuard (s : BfsState) : Bool := decide (0 ≤ s.depth) && decide (s.wl ≠ [])

/-- Fuel-indexed iteration of the loop (for reasoning and evaluation). -/
def bfsRun (links : List SimpleLinkData) : Nat → BfsState → BfsState
  | 0, s => s
  | n + 1, s => if bfsGuard s then bfsRun links n (bfsStep links s) else s

/-- The `while (depth >= 0 && wl.length > 0)` loop itself.  It terminates
because the worklist always contains the sentinel: a sentinel pop
strictly decreases `depth` (bounded below by the loop condition), and any
other pop moves the first sentinel strictly closer to the front. -/
def bfsLoop (links : List SimpleLinkData) (s : BfsState) (h : sentinel ∈ s.wl) : BfsState :=
  if hg : bfsGuard s = true then
    bfsLoop links (bfsStep links s)
      (by
        have hwl : s.wl ≠ [] := by
          intro he
          simp [bfsGuard, he] at hg
        rcases hcase : s.wl with _ | ⟨cur, rest⟩
        · exact absurd hcase hwl
        · rw [hcase] at h
          by_cases hc : cur = sentinel
          · simp [bfsStep, hcase, hc]
          · rcases List.mem_cons.mp h with h1 | h1
            · exact absurd h1.symm hc
            · simp [bfsStep, hcase, hc, List.mem_append, h1])
  else s
termination_by ((s.depth + 1).toNat, s.wl.indexOf sentinel)
decreasing_by
  have hdep : 0 ≤ s.depth := by
    simp [bfsGuard] at hg
    exact hg.1
  have hwl : s.wl ≠ [] := by
    intro he
    simp [bfsGuard, he] at hg
  rcases hcase : s.wl with _ | ⟨cur, rest⟩
  · exact absurd hcase hwl
  · rw [hcase] at h
    by_cases hc : cur = sentinel
    · have hstep : bfsStep links s = ⟨s.depth - 1, rest ++ [sentinel], s.nb⟩ := by
        simp [bfsStep, hcase, hc]
      rw [hstep]
      dsimp only
      exact Prod.Lex.left _ _ (by omega)
    · have hstep : bfsStep links s = ⟨s.depth, rest ++ adjList links cur, addUniq s.nb cur⟩ := by
        simp [bfsStep, hcase, hc]
      have hmem : sentinel ∈ rest := by
        rcases List.mem_cons.mp h with h1 | h1
        · exact absurd h1.symm hc
        · exact h1
      rw [hstep]
      dsimp only
      have hidx1 : (rest ++ adjList links cur).indexOf sentinel = rest.indexOf sentinel := by
        exact List.indexOf_append_of_mem hmem
      have hidx2 : (cur :: rest).indexOf sentinel = rest.indexOf sentinel + 1 := by
        simp [List.indexOf_cons, hc]
      exact Prod.Lex.right _ (by omega)

/-- Initial loop state: `wl = [slug, "__SENTINEL"]`, empty neighbourhood. -/
def bfsInit (slug : String) (depth : Int) : BfsState := ⟨depth, [slug, sentinel], []⟩

/-- The computed neighbourhood (insertion-ordered id list): the worklist
BFS when `depth ≥ 0`; otherwise all of `validLinks` plus (when
`showTags`) all collected tags. -/
def neighbourhoodOf (data : Index) (showTags : Bool) (removeTags : List String)
    (slug : String) (depth : Int) : List String :=
  let links := buildLinks data showTags removeTags
  if 0 ≤ depth then
    (bfsLoop links (bfsInit slug depth) (by simp [bfsInit])).nb
  else
    addAll (addAll [] (keysOf data)) (tagsOf data showTags removeTags)

/-! ## Reachability (specification side) -/

/-- Ids reached by walks of exactly `k` undirected hops from `slug`
(with multiplicity, in worklist order): one BFS layer. -/
def frontier (links : List SimpleLinkData) (slug : String) : Nat → List String
  | 0 => [slug]
  | k + 1 => (frontier links slug k).flatMap (adjList links)

/-- The neighbourhood set accumulated after the first `k` layers. -/
def nbAcc (links : List SimpleLinkData) (slug : String) : Nat → List String
  | 0 => []
  | k + 1 => addAll (nbAcc links slug k) (frontier links slug k)

/-- Exact number of loop iterations needed to finish the first `k`
layers: each layer pops its frontier and then one sentinel. -/
def layerFuel (links : List SimpleLinkData) (slug : String) : Nat → Nat
  | 0 => 0
  | k + 1 => layerFuel links slug k + ((frontier links slug k).length + 1)

/-- `a` and `b` are joined by a link, in either direction. -/
def Adj (links : List SimpleLinkData) (a b : String) : Prop :=
  ∃ l ∈ links, (l.source = a ∧ l.target = b) ∨ (l.source = b ∧ l.target = a)

/-- `v` is reachable from `slug` within `k` undirected hops over the
link graph: the specification's notion of the depth-`k` neighbourhood. -/
def reachableWithin (links : List SimpleLinkData) (slug : String) : Nat → String → Prop
  | 0, v => v = slug
  | k + 1, v =>
    reachableWithin links slug k v ∨
      ∃ u, reachableWithin links slug k u ∧ Adj links u v

/-! ## Node and link construction -/

/-- A graph node as built from a neighbourhood member (`NodeData`): id,
display text, tags, source path and the structural flag booleans computed
once at build time. -/
structure NodeData where
  id : String
  text : String
  tags : List String
  sourcePath : Option String
  isContentNode : Bool
  isConceptTopicNode : Bool
  isDatasetTopicNode : Bool
  isLibraryTopicNode : Bool
  isModelTopicNode : Bool
  isPlatformTopicNode : Bool
  isToolTopicNode : Bool
deriving DecidableEq, Repr

instance : Inhabited NodeData :=
  ⟨⟨"", "", [], none, false, false, false, false, false, false, false⟩⟩

/-- `!!filePath && (filePath.startsWith(seg) || filePath.includes("/" + seg))`. -/
def hasSegment (filePath : Option String) (seg : String) : Bool :=
  match filePath with
  | none => false
  | some p => strStartsWith p seg || strIncludes p ("/" ++ seg)

/-- Build one node from a neighbourhood id: look the id up in the index,
derive the display text (`"#" + url.substring(5)` for tag ids, else
`details?.title ?? url`) and the per-category path-segment flags. -/
def mkNode (data : Index) (url : String) : NodeData :=
  let details := lookupD data url
  let filePath := details.bind (·.filePath)
  { id := url
    text :=
      if strStartsWith url "tags/" then "#" ++ String.mk (url.toList.drop 5)
      else (details.map (·.title)).getD url
    tags := (details.map (·.tags)).getD []
    sourcePath := filePath
    isContentNode := hasSegment filePath "contents/"
    isConceptTopicNode := hasSegment filePath "Concept/"
    isDatasetTopicNode := hasSegment filePath "Dataset/"
    isLibraryTopicNode := hasSegment filePath "Library/"
    isModelTopicNode := hasSegment filePath "Model/"
    isPlatformTopicNode := hasSegment filePath "Platform/"
    isToolTopicNode := hasSegment filePath "Tool/" }

/-- The node list of the rendered graph (`graphData.nodes`). -/
def graphNodes (data : Index) (showTags : Bool) (removeTags : List String)
    (slug : String) (depth : Int) : List NodeData :=
  (neighbourhoodOf data showTags removeTags slug depth).map (mkNode data)

/-- The link list of the rendered graph (`graphData.links`): raw links
filtered to those with both endpoints in the neighbourhood, each endpoint
resolved through the node map (`nodeMap.get(...)!`; the lookup always
succeeds because the node list covers the neighbourhood, the `getD`
default mirrors that the assertion is never exercised). -/
def graphLinks (data : Index) (showTags : Bool) (removeTags : List String)
    (slug : String) (depth : Int) : List (NodeData × NodeData) :=
  let nb := neighbourhoodOf data showTags removeTags slug depth
  let nodes := graphNodes data showTags removeTags slug depth
  ((buildLinks data showTags removeTags).filter
      (fun l => nb.contains l.source && nb.contains l.target)).map
    (fun l =>
      ((nodes.find? (fun n => n.id = l.source)).getD (mkNode data l.source),
       (nodes.find? (fun n => n.id = l.target)).getD (mkNode data l.target)))

/-! ## Node categorization

The source keeps the category as the flag booleans plus the tag-id check
`nodeId.startsWith("tags/")`; the effective single category is given by
the dispatch order of the fill/stroke resolution (`isTagNode` first, then
the `color` chain `isContentNode → isConceptTopicNode → isDatasetTopicNode
→ isLibraryTopicNode → isModelTopicNode → isPlatformTopicNode →
isToolTopicNode → default`). -/

inductive NodeCategory where
  | content
  | tag
  | conceptTopic
  | datasetTopic
  | libraryTopic
  | modelTopic
  | platformTopic
  | toolTopic
  | other
deriving DecidableEq, Repr

/-- The structural category of a node, in the source's dispatch order. -/
def nodeCategory (n : NodeData) : NodeCategory :=
  if strStartsWith n.id "tags/" then .tag
  else if n.isContentNode then .content
  else if n.isConceptTopicNode then .conceptTopic
  else if n.isDatasetTopicNode then .datasetTopic
  else if n.isLibraryTopicNode then .libraryTopic
  else if n.isModelTopicNode then .modelTopic
  else if n.isPlatformTopicNode then .platformTopic
  else if n.isToolTopicNode then .toolTopic
  else .other

/-! ## Hover highlighting (`updateHoverInfo`) -/

/-- Per-node render record (the hover-relevant part). -/
structure NodeRD where
  id : String
  active : Bool
deriving DecidableEq, Repr

/-- Per-link render record (the hover-relevant part). -/
structure LinkRD where
  source : String
  target : String
  active : Bool
deriving DecidableEq, Repr

/-- The `hoveredNeighbours` set: scanning the link render data in order,
for every link incident to the hovered id add its source and then its
target. -/
def hoveredNeighboursOf (linksRD : List LinkRD) (newId : String) : List String :=
  linksRD.foldl
    (fun acc l =>
      if l.source = newId ∨ l.target = newId then addUniq (addUniq acc l.source) l.target
      else acc)
    []

/-- `updateHoverInfo`: on `null` clear every active flag; on a hovered id
mark each link active iff incident to it, and each node active iff its id
is in `hoveredNeighbours`. -/
def updateHoverInfo (nodesRD : List NodeRD) (linksRD : List LinkRD)
    (newHoveredId : Option String) : List NodeRD × List LinkRD :=
  match newHoveredId with
  | none =>
    (nodesRD.map (fun n => { n with active := false }),
     linksRD.map (fun l => { l with active := false }))
  | some newId =>
    let hn := hoveredNeighboursOf linksRD newId
    (nodesRD.map (fun n => { n with active := hn.contains n.id }),
     linksRD.map (fun l => { l with active := (l.source = newId || l.target = newId) }))

/-- Specification-side predicate: `x` is an endpoint of some link
incident to `a`. -/
def endpointOfIncident (linksRD : List LinkRD) (a x : String) : Bool :=
  linksRD.any (fun l => (l.source = a || l.target = a) && (x = l.source || x = l.target))

/-- Specification-side predicate following the spec's words: `x` is at
the other end of some link incident to `a`. -/
def otherEndOfIncident (linksRD : List LinkRD) (a x : String) : Bool :=
  linksRD.any (fun l =>
    (l.source = a || l.target = a) && (x = (if l.source = a then l.target else l.source)))

/-! ## Frame loop, tween bookkeeping, and teardown

State of one mounted instance, restricted to the variables the frame
loop, the hover/render passes and the cleanup closure read and write:
`stopAnimation`, `animationRunning`, whether a `requestAnimationFrame`
callback is pending, the key set of the `tweens` map, whether
`simulation.alpha() < simulation.alphaMin()` (environment-driven, held
fixed here), the popover timers/element, the document key listeners, and
how many times `app.destroy()` has been invoked. -/

structure MountState where
  stopAnimation : Bool
  animationRunning : Bool
  framePending : Bool
  tweenKeys : List String
  alphaLow : Bool
  popoverTimeout : Bool
  hideTimeout : Bool
  activePopover : Bool
  keyListeners : Bool
  appDestroyCount : Nat
deriving DecidableEq, Repr

/-- State right after a mount: `animationRunning = true` and one frame
requested (`requestAnimationFrame(animate)`), empty `tweens` map, popover
state clear, key listeners attached, surface not destroyed. -/
def initialMount (alphaLow : Bool) : MountState :=
  { stopAnimation := false
    animationRunning := true
    framePending := true
    tweenKeys := []
    alphaLow := alphaLow
    popoverTimeout := false
    hideTimeout := false
    activePopover := false
    keyListeners := true
    appDestroyCount := 0 }

/-- `clearGraphPopover()`: cancel both timers and remove the popover. -/
def clearPopoverState (s : MountState) : MountState :=
  { s with popoverTimeout := false, hideTimeout := false, activePopover := false }

/-- `ensureAnimating()`: start one new frame chain only when the loop is
not running and not stopped. -/
def ensureAnimatingStep (s : MountState) : MountState :=
  if ¬ s.animationRunning ∧ ¬ s.stopAnimation then
    { s with animationRunning := true, framePending := true }
  else s

/-- `renderPixiFromD3()` without the trailing `ensureAnimating` call:
`renderNodes`/`renderLinks`/`renderLabels` store their tween wrappers
under the map keys `"hover"`, `"link"`, `"label"` (`tweens.set`
overwrites in place; no key is ever deleted). -/
def renderPassStep (s : MountState) : MountState :=
  { s with tweenKeys := addUniq (addUniq (addUniq s.tweenKeys "hover") "link") "label" }

/-- A `pointerover` on a node: the render pass followed by
`ensureAnimating`. -/
def hoverStep (s : MountState) : MountState :=
  ensureAnimatingStep (renderPassStep s)

/-- One `animate(time)` invocation, if a frame callback is pending:
under `stopAnimation` the loop halts; otherwise it repaints, updates all
tween groups (which never touches the `tweens` keys), and reschedules
itself unless `simulation.alpha() < alphaMin && tweens.size === 0`. -/
def animateStep (s : MountState) : MountState :=
  if ¬ s.framePending then s
  else
    if s.stopAnimation then
      { s with framePending := false, animationRunning := false }
    else if s.alphaLow ∧ s.tweenKeys.isEmpty then
      { s with framePending := false, animationRunning := false }
    else { s with framePending := true }

/-- Iterated frames. -/
def animateIter : Nat → MountState → MountState
  | 0, s => s
  | n + 1, s => animateIter n (animateStep s)

/-- The cleanup closure returned by `renderGraph`: set `stopAnimation`,
clear the popover state, remove both key listeners, and call
`app.destroy()` (unconditionally, on every invocation). -/
def cleanupStep (s : MountState) : MountState :=
  let s1 := { s with stopAnimation := true }
  let s2 := clearPopoverState s1
  let s3 := { s2 with keyListeners := false }
  { s3 with appDestroyCount := s3.appDestroyCount + 1 }

/-! ## Popover fetch flow (`showGraphPopover`) -/

/-- The observable outcome of the fetched response: the HTTP status code,
the `Content-Type` header (if present), and how many elements with class
`popover-hint` the parsed body contains. -/
structure PopoverResponse where
  status : Nat
  contentType : Option String
  hintCount : Nat
deriving DecidableEq, Repr

/-- Outcome of one `showGraphPopover` call. -/
inductive PopoverOutcome where
  | aborted
  | reusedExisting
  | mounted
deriving DecidableEq, Repr

/-- `response.headers.get("Content-Type")?.split(";")[0] ?? ""` as a char
list: everything before the first `;` of the header, or empty when the
header is absent. -/
def contentTypeMain (ct : Option String) : List Char :=
  match ct with
  | none => []
  | some c => c.toList.takeWhile (fun ch => ¬ ch = ';')

/-- `showGraphPopover`, reduced to its mounting decision: reuse an
in-DOM popover for the same address if present; abort when the fetch
rejected (`.catch(() => null)` / `if (!response) return`), when the
content type does not start with `text/html`, or when no `popover-hint`
element is found; otherwise mount the popover.  The HTTP status is never
inspected. -/
def showGraphPopoverOutcome (existingPopover : Bool) (fetchResult : Option PopoverResponse) :
    PopoverOutcome :=
  if existingPopover then .reusedExisting
  else
    match fetchResult with
    | none => .aborted
    | some r =>
      if ¬ listIsPre "text/html".toList (contentTypeMain r.contentType) then .aborted
      else if r.hintCount = 0 then .aborted
      else .mounted

/-- Success status in the sense of the spec (`Response.ok`). -/
def statusOk (status : Nat) : Prop := 200 ≤ status ∧ status < 300

/-! ## Zoom handler -/

/-- The configured `scaleExtent([0.25, 4])`, enforced by the zoom
behaviour (external library): the transform scale is kept inside the
range. -/
def d3ClampScale (k : ℚ) : ℚ := max 0.25 (min 4 k)

/-- `scaleOpacity = Math.max((zoomScale - 1) / 3.75, 0)` with
`zoomScale = transform.k * opacityScale`. -/
def scaleOpacityOf (k opacityScale : ℚ) : ℚ :=
  max ((k * opacityScale - 1) / 3.75) 0

/-- The label alpha after the zoom handler: labels of active nodes are
skipped (`if (!activeNodes.includes(label))`), all others are set to
`scaleOpacity`. -/
def zoomLabelAlpha (active : Bool) (currentAlpha k opacityScale : ℚ) : ℚ :=
  if active then currentAlpha else scaleOpacityOf k opacityScale

/-! ## Concrete inputs used by witnesses and counterexamples -/

/-- Index with a page actually named `"__SENTINEL"`, linked from the
focal page. -/
def sentinelIndex : Index :=
  [("a", ⟨"A", some ["__SENTINEL"], [], none⟩),
   ("__SENTINEL", ⟨"S", some [], [], none⟩)]

/-- Two-page index used as a concrete witness input. -/
def abIndex : Index :=
  [("a", ⟨"A", some ["b"], [], none⟩),
   ("b", ⟨"B", some [], [], none⟩)]

/-- Index whose single page has a source path containing both a `Model/`
and a `Concept/` segment. -/
def modelConceptIndex : Index :=
  [("m", ⟨"M", some [], [], some "Model/Concept/x.md"⟩)]

/-- Index whose single page has a source path containing only the
`Model/` topic segment. -/
def modelOnlyIndex : Index :=
  [("m", ⟨"M", some [], [], some "Topics/Model/GPT.md"⟩)]

/-- Two render nodes joined by one link. -/
def abNodesRD : List NodeRD := [⟨"a", false⟩, ⟨"b", false⟩]

/-- The single link of `abNodesRD`. -/
def abLinksRD : List LinkRD := [⟨"a", "b", false⟩]

/-- A mounted instance whose simulation has cooled (`alpha < alphaMin`)
and whose frame loop has already self-stopped, before any hover. -/
def cooledIdleMount : MountState :=
  { initialMount true with animationRunning := false, framePending := false }

/-! ## Infrastructure lemmas: insertion-ordered sets -/

theorem mem_addUniq {nb : List String} {x y : String} :
    x ∈ addUniq nb y ↔ x ∈ nb ∨ x = y := by
  unfold addUniq
  split
  · rename_i hmem
    constructor
    · exact Or.inl
    · rintro (h | rfl)
      · exact h
      · simpa using hmem
  · simp

theorem addAll_cons (nb : List String) (c : String) (xs : List String) :
    addAll nb (c :: xs) = addAll (addUniq nb c) xs := rfl

theorem mem_addAll {x : String} : ∀ {xs nb : List String},
    x ∈ addAll nb xs ↔ x ∈ nb ∨ x ∈ xs := by
  intro xs
  induction xs with
  | nil => simp [addAll]
  | cons c xs ih =>
    intro nb
    rw [addAll_cons, ih, mem_addUniq]
    constructor
    · rintro ((h | rfl) | h)
      · exact Or.inl h
      · exact Or.inr (List.mem_cons_self _ _)
      · exact Or.inr (List.mem_cons_of_mem _ h)
    · rintro (h | h)
      · exact Or.inl (Or.inl h)
      · rcases List.mem_cons.mp h with rfl | h
        · exact Or.inl (Or.inr rfl)
        · exact Or.inr h

/-! ## Infrastructure lemmas: the fuel-indexed loop -/

theorem bfsRun_of_guard_false {links : List SimpleLinkData} {s : BfsState}
    (h : bfsGuard s = false) : ∀ n, bfsRun links n s = s := by
  intro n
  cases n with
  | zero => rfl
  | succ n => simp [bfsRun, h]

theorem bfsRun_succ_of_guard {links : List SimpleLinkData} {s : BfsState}
    (h : bfsGuard s = true) (n : Nat) :
    bfsRun links (n + 1) s = bfsRun links n (bfsStep links s) := by
  simp [bfsRun, h]

theorem bfsRun_add (links : List SimpleLinkData) (m n : Nat) (s : BfsState) :
    bfsRun links (m + n) s = bfsRun links n (bfsRun links m s) := by
  induction m generalizing s with
  | zero => simp [bfsRun]
  | succ m ih =>
    by_cases hg : bfsGuard s = true
    · have h1 : m + 1 + n = m + n + 1 := by omega
      rw [h1, bfsRun_succ_of_guard hg, bfsRun_succ_of_guard hg, ih]
    · have hg' : bfsGuard s = false := by simpa using hg
      rw [bfsRun_of_guard_false hg', bfsRun_of_guard_false hg']
      exact (bfsRun_of_guard_false hg' n).symm

/-- Once the loop condition fails, the loop has finished: the recursive
`bfsLoop` agrees with any sufficiently long fuel-indexed run. -/
theorem bfsLoop_eq_run {links : List SimpleLinkData} :
    ∀ (n : Nat) (s : BfsState) (h : sentinel ∈ s.wl),
      bfsGuard (bfsRun links n s) = false → bfsLoop links s h = bfsRun links n s := by
  intro n
  induction n with
  | zero =>
    intro s h hfin
    simp only [bfsRun] at hfin
    rw [bfsLoop, dif_neg (by simp [hfin])]
    rfl
  | succ n ih =>
    intro s h hfin
    by_cases hg : bfsGuard s = true
    · rw [bfsRun_succ_of_guard hg] at hfin
      rw [bfsLoop, dif_pos hg, bfsRun_succ_of_guard hg]
      exact ih _ _ hfin
    · have hg' : bfsGuard s = false := by simpa using hg
      rw [bfsLoop, dif_neg (by simp [hg']), bfsRun_of_guard_false hg']

/-! ## Termination of the worklist loop -/

theorem bfs_term_aux (links : List SimpleLinkData) :
    ∀ a : Nat, ∀ s : BfsState, sentinel ∈ s.wl → (s.depth + 1).toNat ≤ a →
      ∃ n, bfsGuard (bfsRun links n s) = false := by
  intro a
  induction a with
  | zero =>
    intro s _ hle
    refine ⟨0, ?_⟩
    simp only [bfsRun, bfsGuard]
    have : ¬ (0 ≤ s.depth) := by omega
    simp [this]
  | succ a iha =>
    have inner : ∀ b : Nat, ∀ s : BfsState, sentinel ∈ s.wl → (s.depth + 1).toNat ≤ a + 1 →
        s.wl.indexOf sentinel ≤ b → ∃ n, bfsGuard (bfsRun links n s) = false := by
      intro b
      induction b with
      | zero =>
        intro s hs hd hidx
        by_cases hg : bfsGuard s = true
        · have hwl : s.wl ≠ [] := by
            intro he
            simp [bfsGuard, he] at hg
          have hdep : 0 ≤ s.depth := by
            simp [bfsGuard] at hg
            exact hg.1
          rcases hcase : s.wl with _ | ⟨cur, rest⟩
          · exact absurd hcase hwl
          · rw [hcase] at hs hidx
            by_cases hc : cur = sentinel
            · have hstep : bfsStep links s = ⟨s.depth - 1, rest ++ [sentinel], s.nb⟩ := by
                simp [bfsStep, hcase, hc]
            -- sentinel pop: depth strictly decreases
              obtain ⟨n, hn⟩ := iha (bfsStep links s)
                (by rw [hstep]; simp)
                (by rw [hstep]; dsimp only; omega)
              exact ⟨n + 1, by rw [bfsRun_succ_of_guard hg]; exact hn⟩
            · exfalso
              have : List.indexOf sentinel (cur :: rest) = List.indexOf sentinel rest + 1 := by
                simp [List.indexOf_cons, hc]
              omega
        · exact ⟨0, by simpa using hg⟩
      | succ b ihb =>
        intro s hs hd hidx
        by_cases hg : bfsGuard s = true
        · have hwl : s.wl ≠ [] := by
            intro he
            simp [bfsGuard, he] at hg
          have hdep : 0 ≤ s.depth := by
            simp [bfsGuard] at hg
            exact hg.1
          rcases hcase : s.wl with _ | ⟨cur, rest⟩
          · exact absurd hcase hwl
          · rw [hcase] at hs hidx
            by_cases hc : cur = sentinel
            · have hstep : bfsStep links s = ⟨s.depth - 1, rest ++ [sentinel], s.nb⟩ := by
                simp [bfsStep, hcase, hc]
              obtain ⟨n, hn⟩ := iha (bfsStep links s)
                (by rw [hstep]; simp)
                (by rw [hstep]; dsimp only; omega)
              exact ⟨n + 1, by rw [bfsRun_succ_of_guard hg]; exact hn⟩
            · have hmem : sentinel ∈ rest := by
                rcases List.mem_cons.mp hs with h1 | h1
                · exact absurd h1.symm hc
                · exact h1
              have hstep : bfsStep links s = ⟨s.depth, rest ++ adjList links cur, addUniq s.nb cur⟩ := by
                simp [bfsStep, hcase, hc]
              obtain ⟨n, hn⟩ := ihb (bfsStep links s)
                (by rw [hstep]; dsimp only; exact List.mem_append_left _ hmem)
                (by rw [hstep]; dsimp only; exact hd)
                (by
                  rw [hstep]
                  dsimp only
                  have h1 : List.indexOf sentinel (rest ++ adjList links cur)
                      = List.indexOf sentinel rest := List.indexOf_append_of_mem hmem
                  have h2 : List.indexOf sentinel (cur :: rest)
                      = List.indexOf sentinel rest + 1 := by
                    simp [List.indexOf_cons, hc]
                  omega)
              exact ⟨n + 1, by rw [bfsRun_succ_of_guard hg]; exact hn⟩
        · exact ⟨0, by simpa using hg⟩
    intro s hs hd
    exact inner (s.wl.indexOf sentinel) s hs hd le_rfl

/-- Any state whose worklist holds the sentinel reaches a final state in
finitely many iterations. -/
theorem bfs_terminates (links : List SimpleLinkData) (s : BfsState)
    (hs : sentinel ∈ s.wl) : ∃ n, bfsGuard (bfsRun links n s) = false :=
  bfs_term_aux links (s.depth + 1).toNat s hs le_rfl

/-- C10 (confirmed): the neighbourhood worklist loop terminates for every
finite link list, every focal id, and every depth — including cyclic link
graphs: after finitely many iterations the loop condition
`depth >= 0 && wl.length > 0` fails, and the recursively defined loop
result is exactly that finite iteration's result.  Each sentinel pop
strictly decreases the remaining depth, and every other pop moves the
first sentinel (always present in the worklist) closer to the front. -/
theorem bfs_loop_terminates (links : List SimpleLinkData) (slug : String) (depth : Int) :
    ∃ n, bfsGuard (bfsRun links n (bfsInit slug depth)) = false ∧
      bfsLoop links (bfsInit slug depth) (by simp [bfsInit]) =
        bfsRun links n (bfsInit slug depth) := by
  obtain ⟨n, hn⟩ := bfs_terminates links (bfsInit slug depth) (by simp [bfsInit])
  exact ⟨n, hn, bfsLoop_eq_run n _ _ hn⟩

/-! ## Layered execution of the worklist loop -/

/-- Processing one full frontier layer: with the worklist holding the
layer items in front of the sentinel, after `pre.length + 1` iterations
the layer has been added to the neighbourhood, the pushed neighbours sit
behind the re-pushed sentinel, and the depth has decreased by one. -/
theorem bfsRun_layer (links : List SimpleLinkData) :
    ∀ pre : List String, sentinel ∉ pre → ∀ dep : Int, 0 ≤ dep → ∀ post nb : List String,
      bfsRun links (pre.length + 1) ⟨dep, pre ++ sentinel :: post, nb⟩
        = ⟨dep - 1, (post ++ pre.flatMap (adjList links)) ++ [sentinel], addAll nb pre⟩ := by
  intro pre
  induction pre with
  | nil =>
    intro _ dep hdep post nb
    have hg : bfsGuard ⟨dep, [] ++ sentinel :: post, nb⟩ = true := by
      simp [bfsGuard, hdep]
    rw [show ([] : List String).length + 1 = 0 + 1 from rfl, bfsRun_succ_of_guard hg]
    simp [bfsRun, bfsStep, addAll]
  | cons c pre ih =>
    intro hns dep hdep post nb
    have hc : ¬ (c = sentinel) := by
      intro h
      exact hns (by rw [h]; exact List.mem_cons_self _ _)
    have hg : bfsGuard ⟨dep, (c :: pre) ++ sentinel :: post, nb⟩ = true := by
      simp [bfsGuard, hdep]
    have hstep : bfsStep links ⟨dep, (c :: pre) ++ sentinel :: post, nb⟩
        = ⟨dep, pre ++ sentinel :: (post ++ adjList links c), addUniq nb c⟩ := by
      simp [bfsStep, hc, List.append_assoc]
    rw [show (c :: pre).length + 1 = (pre.length + 1) + 1 from by simp]
    rw [bfsRun_succ_of_guard hg, hstep,
      ih (fun hmem => hns (List.mem_cons_of_mem _ hmem)) dep hdep
        (post ++ adjList links c) (addUniq nb c)]
    simp [BfsState.mk.injEq, addAll_cons, List.append_assoc]

theorem adjList_ne_sentinel {links : List SimpleLinkData}
    (hlinks : ∀ l ∈ links, l.source ≠ sentinel ∧ l.target ≠ sentinel)
    {u v : String} (hv : v ∈ adjList links u) : v ≠ sentinel := by
  rcases List.mem_append.mp hv with h | h
  · obtain ⟨l, hl, rfl⟩ := List.mem_map.mp h
    exact (hlinks l (List.mem_filter.mp hl).1).2
  · obtain ⟨l, hl, rfl⟩ := List.mem_map.mp h
    exact (hlinks l (List.mem_filter.mp hl).1).1

theorem frontier_no_sentinel {links : List SimpleLinkData} {slug : String}
    (hlinks : ∀ l ∈ links, l.source ≠ sentinel ∧ l.target ≠ sentinel)
    (hslug : slug ≠ sentinel) : ∀ k, sentinel ∉ frontier links slug k := by
  intro k
  cases k with
  | zero =>
    intro hmem
    rw [frontier] at hmem
    have h1 : sentinel = slug := by simpa using hmem
    exact hslug h1.symm
  | succ k =>
    intro hmem
    rw [frontier] at hmem
    obtain ⟨u, _, hadj⟩ := List.mem_flatMap.mp hmem
    exact adjList_ne_sentinel hlinks hadj rfl

/-- Exact layered execution: as long as the focal id and the link
endpoints avoid the in-band sentinel string, after `layerFuel k`
iterations exactly the first `k` layers have been processed. -/
theorem bfs_exec (links : List SimpleLinkData) (slug : String)
    (hlinks : ∀ l ∈ links, l.source ≠ sentinel ∧ l.target ≠ sentinel)
    (hslug : slug ≠ sentinel) (d : Nat) :
    ∀ k : Nat, k ≤ d + 1 →
      bfsRun links (layerFuel links slug k) (bfsInit slug (d : Int))
        = ⟨(d : Int) - (k : Int), frontier links slug k ++ [sentinel], nbAcc links slug k⟩ := by
  intro k
  induction k with
  | zero =>
    intro _
    simp [layerFuel, bfsRun, bfsInit, frontier, nbAcc]
  | succ k ih =>
    intro hk
    rw [layerFuel, bfsRun_add, ih (by omega)]
    have hlay := bfsRun_layer links (frontier links slug k)
      (frontier_no_sentinel hlinks hslug k) ((d : Int) - (k : Int)) (by omega) []
      (nbAcc links slug k)
    rw [show frontier links slug k ++ [sentinel] = frontier links slug k ++ sentinel :: []
      from rfl]
    rw [hlay]
    simp only [BfsState.mk.injEq, frontier, nbAcc, List.nil_append, and_true]
    push_cast
    omega

/-! ## Membership characterizations -/

theorem mem_adjList {links : List SimpleLinkData} {u v : String} :
    v ∈ adjList links u ↔ Adj links u v := by
  constructor
  · intro hv
    rcases List.mem_append.mp hv with h | h
    · obtain ⟨l, hl, hv'⟩ := List.mem_map.mp h
      have hs := List.mem_filter.mp hl
      exact ⟨l, hs.1, Or.inl ⟨by simpa using hs.2, hv'⟩⟩
    · obtain ⟨l, hl, hv'⟩ := List.mem_map.mp h
      have hs := List.mem_filter.mp hl
      exact ⟨l, hs.1, Or.inr ⟨hv', by simpa using hs.2⟩⟩
  · rintro ⟨l, hl, h | h⟩
    · exact List.mem_append_left _
        (List.mem_map.mpr ⟨l, List.mem_filter.mpr ⟨hl, by simp [h.1]⟩, h.2⟩)
    · exact List.mem_append_right _
        (List.mem_map.mpr ⟨l, List.mem_filter.mpr ⟨hl, by simp [h.2]⟩, h.1⟩)

theorem mem_nbAcc (links : List SimpleLinkData) (slug : String) :
    ∀ (k : Nat) (v : String),
      v ∈ nbAcc links slug k ↔ ∃ j, j < k ∧ v ∈ frontier links slug j := by
  intro k
  induction k with
  | zero => simp [nbAcc]
  | succ k ih =>
    intro v
    rw [nbAcc, mem_addAll, ih]
    constructor
    · rintro (⟨j, hj, hv⟩ | hv)
      · exact ⟨j, by omega, hv⟩
      · exact ⟨k, by omega, hv⟩
    · rintro ⟨j, hj, hv⟩
      rcases Nat.lt_or_ge j k with h | h
      · exact Or.inl ⟨j, h, hv⟩
      · have hjk : j = k := by omega
        subst hjk
        exact Or.inr hv

theorem reachable_iff_frontier (links : List SimpleLinkData) (slug : String) :
    ∀ (k : Nat) (v : String),
      reachableWithin links slug k v ↔ ∃ j, j ≤ k ∧ v ∈ frontier links slug j := by
  intro k
  induction k with
  | zero =>
    intro v
    rw [reachableWithin]
    constructor
    · rintro rfl
      exact ⟨0, le_rfl, by simp [frontier]⟩
    · rintro ⟨j, hj, hv⟩
      have hj0 : j = 0 := by omega
      subst hj0
      simpa [frontier] using hv
  | succ k ih =>
    intro v
    rw [reachableWithin]
    constructor
    · rintro (h | ⟨u, hu, hadj⟩)
      · obtain ⟨j, hj, hv⟩ := (ih v).mp h
        exact ⟨j, by omega, hv⟩
      · obtain ⟨j, hj, hu'⟩ := (ih u).mp hu
        refine ⟨j + 1, by omega, ?_⟩
        rw [frontier]
        exact List.mem_flatMap.mpr ⟨u, hu', mem_adjList.mpr hadj⟩
    · rintro ⟨j, hj, hv⟩
      rcases Nat.lt_or_ge j (k + 1) with hlt | hge
      · exact Or.inl ((ih v).mpr ⟨j, by omega, hv⟩)
      · have hj' : j = k + 1 := by omega
        subst hj'
        rw [frontier] at hv
        obtain ⟨u, hu, hv'⟩ := List.mem_flatMap.mp hv
        exact Or.inr ⟨u, (ih u).mpr ⟨k, le_rfl, hu⟩, mem_adjList.mp hv'⟩

/-! ## Link-list endpoints -/

theorem tagSlug_ne_sentinel (t : String) : tagSlug t ≠ sentinel := by
  intro h
  have hd : ("tags/" ++ t).data = sentinel.data := congrArg String.data h
  rw [String.data_append] at hd
  have h1 : "tags/".data = ['t', 'a', 'g', 's', '/'] := rfl
  have h2 : sentinel.data = ['_', '_', 'S', 'E', 'N', 'T', 'I', 'N', 'E', 'L'] := rfl
  rw [h1, h2] at hd
  simp only [List.cons_append, List.cons.injEq] at hd
  exact absurd hd.1 (by decide)

theorem localTags_ne_sentinel {details : ContentDetails} {rt : List String} {x : String}
    (hx : x ∈ localTagsOf details rt) : x ≠ sentinel := by
  obtain ⟨t, _, rfl⟩ := List.mem_map.mp hx
  exact tagSlug_ne_sentinel t

theorem buildLinks_mem {data : Index} {st : Bool} {rt : List String} {l : SimpleLinkData}
    (hl : l ∈ buildLinks data st rt) :
    l.source ∈ keysOf data ∧
      (l.target ∈ keysOf data ∨ (st = true ∧ ∃ p ∈ data, l.target ∈ localTagsOf p.2 rt)) := by
  unfold buildLinks at hl
  obtain ⟨p, hp, hl'⟩ := List.mem_flatMap.mp hl
  rcases List.mem_append.mp hl' with h | h
  · obtain ⟨dest, hdest, hmk⟩ := List.mem_map.mp h
    have hd := List.mem_filter.mp hdest
    rw [← hmk]
    refine ⟨List.mem_map.mpr ⟨p, hp, rfl⟩, Or.inl ?_⟩
    have hcont : (keysOf data).contains dest = true := by simpa using hd.2
    exact List.mem_of_elem_eq_true hcont
  · rcases hst : st with _ | _
    · rw [hst] at h
      simp at h
    · rw [hst] at h
      rw [if_pos rfl] at h
      obtain ⟨tag, htag, hmk⟩ := List.mem_map.mp h
      rw [← hmk]
      exact ⟨List.mem_map.mpr ⟨p, hp, rfl⟩, Or.inr ⟨rfl, p, hp, htag⟩⟩

theorem buildLinks_no_sentinel {data : Index} {st : Bool} {rt : List String}
    (hkeys : sentinel ∉ keysOf data) :
    ∀ l ∈ buildLinks data st rt, l.source ≠ sentinel ∧ l.target ≠ sentinel := by
  intro l hl
  obtain ⟨hs, ht⟩ := buildLinks_mem hl
  refine ⟨fun h => hkeys (h ▸ hs), ?_⟩
  rcases ht with h | ⟨_, p, _, hx⟩
  · exact fun he => hkeys (he ▸ h)
  · exact localTags_ne_sentinel hx

theorem mem_tagsOf_aux (rt : List String) :
    ∀ (data : List (String × ContentDetails)) (acc : List String) (x : String),
      x ∈ data.foldl
          (fun acc p => acc ++ ((localTagsOf p.2 rt).filter (fun t => ¬ acc.contains t))) acc
        ↔ x ∈ acc ∨ ∃ p ∈ data, x ∈ localTagsOf p.2 rt := by
  intro data
  induction data with
  | nil => simp
  | cons q data ih =>
    intro acc x
    rw [List.foldl_cons, ih]
    constructor
    · rintro (h | h)
      · rcases List.mem_append.mp h with h1 | h1
        · exact Or.inl h1
        · exact Or.inr ⟨q, List.mem_cons_self _ _, (List.mem_filter.mp h1).1⟩
      · obtain ⟨p, hp, hx⟩ := h
        exact Or.inr ⟨p, List.mem_cons_of_mem _ hp, hx⟩
    · rintro (h | ⟨p, hp, hx⟩)
      · exact Or.inl (List.mem_append_left _ h)
      · rcases List.mem_cons.mp hp with heq | hp'
        · subst heq
          by_cases hacc : x ∈ acc
          · exact Or.inl (List.mem_append_left _ hacc)
          · refine Or.inl (List.mem_append_right _ ?_)
            refine List.mem_filter.mpr ⟨hx, ?_⟩
            simpa using hacc
        · exact Or.inr ⟨p, hp', hx⟩

theorem mem_tagsOf {data : Index} {st : Bool} {rt : List String} {x : String} :
    x ∈ tagsOf data st rt ↔ st = true ∧ ∃ p ∈ data, x ∈ localTagsOf p.2 rt := by
  rcases hst : st with _ | _
  · simp [tagsOf]
  · unfold tagsOf
    rw [if_pos rfl, mem_tagsOf_aux]
    simp

/-! ## Neighbourhood characterization -/

/-- Evaluation principle for the neighbourhood: if a concrete `n`-step
run has reached a final state, the loop's neighbourhood (for
`0 ≤ depth`) is that run's `nb` field. -/
theorem neighbourhoodOf_eval (data : Index) (showTags : Bool) (removeTags : List String)
    (slug : String) (depth : Int) (n : Nat) (h0 : 0 ≤ depth)
    (hfin : bfsGuard
      (bfsRun (buildLinks data showTags removeTags) n (bfsInit slug depth)) = false) :
    neighbourhoodOf data showTags removeTags slug depth
      = (bfsRun (buildLinks data showTags removeTags) n (bfsInit slug depth)).nb := by
  simp only [neighbourhoodOf]
  rw [if_pos h0, bfsLoop_eq_run n _ _ hfin]

/-- Under the no-sentinel-collision provisos, the computed neighbourhood
is the union of the first `d + 1` BFS layers. -/
theorem neighbourhoodOf_eq_nbAcc (data : Index) (showTags : Bool) (removeTags : List String)
    (slug : String) (d : Nat) (hkeys : sentinel ∉ keysOf data) (hslug : slug ≠ sentinel) :
    neighbourhoodOf data showTags removeTags slug (d : Int)
      = nbAcc (buildLinks data showTags removeTags) slug (d + 1) := by
  have hlinks := @buildLinks_no_sentinel data showTags removeTags hkeys
  have hexec := bfs_exec (buildLinks data showTags removeTags) slug hlinks hslug d (d + 1)
    le_rfl
  have hfin : bfsGuard (bfsRun (buildLinks data showTags removeTags)
      (layerFuel (buildLinks data showTags removeTags) slug (d + 1))
      (bfsInit slug (d : Int))) = false := by
    rw [hexec]
    have hneg : ¬ (0 ≤ (d : Int) - ((d + 1 : Nat) : Int)) := by push_cast; omega
    simp [bfsGuard, hneg]
  rw [neighbourhoodOf_eval data showTags removeTags slug (d : Int) _
    (Int.natCast_nonneg d) hfin, hexec]

/-- C1 (corrected): neighbourhood correctness, for every index containing
no page whose id is the in-band sentinel string `"__SENTINEL"` and every
focal id other than that string.  For depth = 0 the neighbourhood is
exactly `{focal}`; for depth = d ≥ 0 it equals the set of nodes reachable
within `d` undirected hops from the focal over the content+tag link
graph; for depth < 0 it equals the entire index plus (when `showTags` is
enabled) all collected tag nodes. -/
theorem neighbourhood_correctness (data : Index) (showTags : Bool) (removeTags : List String)
    (slug : String) (hkeys : sentinel ∉ keysOf data) (hslug : slug ≠ sentinel) :
    (∀ v, v ∈ neighbourhoodOf data showTags removeTags slug 0 ↔ v = slug) ∧
    (∀ (d : Nat) (v : String),
      v ∈ neighbourhoodOf data showTags removeTags slug (d : Int) ↔
        reachableWithin (buildLinks data showTags removeTags) slug d v) ∧
    (∀ depth : Int, depth < 0 → ∀ v,
      v ∈ neighbourhoodOf data showTags removeTags slug depth ↔
        v ∈ keysOf data ∨ v ∈ tagsOf data showTags removeTags) := by
  have hmain : ∀ (d : Nat) (v : String),
      v ∈ neighbourhoodOf data showTags removeTags slug (d : Int) ↔
        reachableWithin (buildLinks data showTags removeTags) slug d v := by
    intro d v
    rw [neighbourhoodOf_eq_nbAcc data showTags removeTags slug d hkeys hslug,
      mem_nbAcc, reachable_iff_frontier]
    constructor
    · rintro ⟨j, hj, hv⟩
      exact ⟨j, by omega, hv⟩
    · rintro ⟨j, hj, hv⟩
      exact ⟨j, by omega, hv⟩
  refine ⟨?_, hmain, ?_⟩
  · intro v
    have h0 := hmain 0 v
    rw [show ((0 : Nat) : Int) = (0 : Int) from rfl] at h0
    rw [h0, reachableWithin]
  · intro depth hdepth v
    simp only [neighbourhoodOf]
    rw [if_neg (by omega)]
    rw [mem_addAll, mem_addAll]
    simp

/-- C1 counterexample: on an index containing a page whose id is the
in-band sentinel string, the claim fails as stated — the page is
reachable within one undirected hop from the focal, yet the depth-1
neighbourhood omits it (the worklist loop consumes its id as a depth
marker). -/
theorem neighbourhood_correctness_cex :
    reachableWithin (buildLinks sentinelIndex false []) "a" 1 "__SENTINEL" ∧
      "__SENTINEL" ∉ neighbourhoodOf sentinelIndex false [] "a" 1 := by
  constructor
  · refine Or.inr ⟨"a", rfl, ⟨⟨"a", "__SENTINEL"⟩, ?_, Or.inl ⟨rfl, rfl⟩⟩⟩
    decide
  · rw [neighbourhoodOf_eval sentinelIndex false [] "a" 1 6 (by decide) (by decide)]
    decide

/-- C1 witness: the amended theorem applied at a concrete index. -/
theorem neighbourhood_correctness_witness :
    (sentinel ∉ keysOf abIndex ∧ ("a" : String) ≠ sentinel) ∧
      (∀ v, v ∈ neighbourhoodOf abIndex false [] "a" 0 ↔ v = "a") :=
  ⟨⟨by decide, by decide⟩,
    (neighbourhood_correctness abIndex false [] "a" (by decide) (by decide)).1⟩

/-! ## C2: link filtering -/

/-- C2 (confirmed): every link in the rendered graph data has both its
source and its target in the computed neighbourhood; no rendered link has
an endpoint outside the neighbourhood. -/
theorem graphLinks_endpoints_in_neighbourhood (data : Index) (showTags : Bool)
    (removeTags : List String) (slug : String) (depth : Int)
    (l : NodeData × NodeData) (hl : l ∈ graphLinks data showTags removeTags slug depth) :
    l.1.id ∈ neighbourhoodOf data showTags removeTags slug depth ∧
      l.2.id ∈ neighbourhoodOf data showTags removeTags slug depth := by
  simp only [graphLinks] at hl
  obtain ⟨l0, hl0, hmk⟩ := List.mem_map.mp hl
  have hf := List.mem_filter.mp hl0
  have hcond := hf.2
  rw [Bool.and_eq_true] at hcond
  have hsrc : l0.source ∈ neighbourhoodOf data showTags removeTags slug depth :=
    List.mem_of_elem_eq_true hcond.1
  have htgt : l0.target ∈ neighbourhoodOf data showTags removeTags slug depth :=
    List.mem_of_elem_eq_true hcond.2
  have hid1 : l.1.id = l0.source := by
    rw [← hmk]
    rcases hfind : (graphNodes data showTags removeTags slug depth).find?
        (fun n => n.id = l0.source) with _ | n
    · simp [hfind, mkNode]
    · have hp := List.find?_some hfind
      simp only [hfind, Option.getD_some]
      exact of_decide_eq_true hp
  have hid2 : l.2.id = l0.target := by
    rw [← hmk]
    rcases hfind : (graphNodes data showTags removeTags slug depth).find?
        (fun n => n.id = l0.target) with _ | n
    · simp [hfind, mkNode]
    · have hp := List.find?_some hfind
      simp only [hfind, Option.getD_some]
      exact of_decide_eq_true hp
  rw [hid1, hid2]
  exact ⟨hsrc, htgt⟩

/-- The depth-1 neighbourhood of `abIndex` from focal `"a"`, evaluated. -/
theorem abIndex_nb_eval : neighbourhoodOf abIndex false [] "a" 1 = ["a", "b"] := by
  rw [neighbourhoodOf_eval abIndex false [] "a" 1 6 (by decide) (by decide)]
  decide

/-- C2 witness: the theorem applied to the concrete link of `abIndex`. -/
theorem graphLinks_endpoints_witness :
    ((mkNode abIndex "a", mkNode abIndex "b") ∈ graphLinks abIndex false [] "a" 1) ∧
      (mkNode abIndex "a", mkNode abIndex "b").1.id ∈ neighbourhoodOf abIndex false [] "a" 1 ∧
      (mkNode abIndex "a", mkNode abIndex "b").2.id ∈ neighbourhoodOf abIndex false [] "a" 1 := by
  have hmem : (mkNode abIndex "a", mkNode abIndex "b") ∈ graphLinks abIndex false [] "a" 1 := by
    simp only [graphLinks, graphNodes, abIndex_nb_eval]
    decide
  exact ⟨hmem,
    graphLinks_endpoints_in_neighbourhood abIndex false [] "a" 1
      (mkNode abIndex "a", mkNode abIndex "b") hmem⟩

/-! ## C3: missing focal id -/

theorem adjList_of_missing (data : Index) (st : Bool) (rt : List String) (slug : String)
    (hmiss : slug ∉ keysOf data) (htags : slug ∉ tagsOf data st rt) :
    adjList (buildLinks data st rt) slug = [] := by
  unfold adjList
  have h1 : (buildLinks data st rt).filter (fun l => l.source = slug) = [] := by
    rw [List.filter_eq_nil_iff]
    intro l hl
    have hsrc := (buildLinks_mem hl).1
    simp only [decide_eq_true_eq]
    intro heq
    exact hmiss (heq ▸ hsrc)
  have h2 : (buildLinks data st rt).filter (fun l => l.target = slug) = [] := by
    rw [List.filter_eq_nil_iff]
    intro l hl
    simp only [decide_eq_true_eq]
    intro heq
    rcases (buildLinks_mem hl).2 with h | ⟨hst, p, hp, hx⟩
    · exact hmiss (heq ▸ h)
    · exact htags (heq ▸ mem_tagsOf.mpr ⟨hst, p, hp, hx⟩)
  rw [h1, h2]
  rfl

theorem frontier_of_missing (data : Index) (st : Bool) (rt : List String) (slug : String)
    (hmiss : slug ∉ keysOf data) (htags : slug ∉ tagsOf data st rt) :
    ∀ k : Nat, frontier (buildLinks data st rt) slug (k + 1) = [] := by
  intro k
  induction k with
  | zero => simp [frontier, adjList_of_missing data st rt slug hmiss htags]
  | succ k ih => rw [frontier, ih]; rfl

theorem nbAcc_of_missing (data : Index) (st : Bool) (rt : List String) (slug : String)
    (hmiss : slug ∉ keysOf data) (htags : slug ∉ tagsOf data st rt) :
    ∀ d : Nat, nbAcc (buildLinks data st rt) slug (d + 1) = [slug] := by
  intro d
  induction d with
  | zero => simp [nbAcc, frontier, addAll, addUniq]
  | succ d ih =>
    rw [nbAcc, frontier_of_missing data st rt slug hmiss htags, ih]
    rfl

/-- C3 (corrected): missing focal id.  If the focal id is not a key of
the index (and is neither a collected tag id nor the in-band sentinel
string, over an index avoiding that string): for every depth ≥ 0 the
build yields exactly one node — the focal itself — and an empty link
list; for depth < 0 the build yields the full-index graph, in which the
focal does not occur. -/
theorem missing_focal_graph (data : Index) (showTags : Bool) (removeTags : List String)
    (slug : String) (hmiss : slug ∉ keysOf data)
    (htags : slug ∉ tagsOf data showTags removeTags)
    (hkeys : sentinel ∉ keysOf data) (hslug : slug ≠ sentinel) :
    (∀ d : Nat,
      graphNodes data showTags removeTags slug (d : Int) = [mkNode data slug] ∧
        graphLinks data showTags removeTags slug (d : Int) = []) ∧
    (∀ depth : Int, depth < 0 →
      ∀ n ∈ graphNodes data showTags removeTags slug depth, n.id ≠ slug) := by
  constructor
  · intro d
    have hnb : neighbourhoodOf data showTags removeTags slug (d : Int) = [slug] := by
      rw [neighbourhoodOf_eq_nbAcc data showTags removeTags slug d hkeys hslug,
        nbAcc_of_missing data showTags removeTags slug hmiss htags]
    constructor
    · rw [graphNodes, hnb]
      rfl
    · simp only [graphLinks, graphNodes, hnb]
      have hfilter : (buildLinks data showTags removeTags).filter
          (fun l => [slug].contains l.source && [slug].contains l.target) = [] := by
        rw [List.filter_eq_nil_iff]
        intro l hl
        intro hcond
        rw [Bool.and_eq_true] at hcond
        have hsrc : l.source ∈ [slug] := List.mem_of_elem_eq_true hcond.1
        have : l.source = slug := by simpa using hsrc
        exact hmiss (this ▸ (buildLinks_mem hl).1)
      rw [hfilter]
      rfl
  · intro depth hdepth n hn
    obtain ⟨v, hv, hmk⟩ := List.mem_map.mp hn
    have hid : n.id = v := by rw [← hmk]; rfl
    rw [hid]
    simp only [neighbourhoodOf] at hv
    rw [if_neg (by omega)] at hv
    rw [mem_addAll, mem_addAll] at hv
    intro heq
    subst heq
    rcases hv with (h | h) | h
    · simp at h
    · exact hmiss h
    · exact htags h

/-- C3 counterexample: a focal id absent from the (empty) index still
produces a nonempty node list — the focal node itself is rendered. -/
theorem missing_focal_graph_cex :
    ("a" ∉ keysOf ([] : Index)) ∧ graphNodes ([] : Index) false [] "a" 0 ≠ [] := by
  refine ⟨by decide, ?_⟩
  have hnb : neighbourhoodOf ([] : Index) false [] "a" 0 = ["a"] := by
    rw [neighbourhoodOf_eval ([] : Index) false [] "a" 0 3 (by decide) (by decide)]
    decide
  rw [graphNodes, hnb]
  decide

/-- C3 witness: the amended theorem applied at a concrete missing focal. -/
theorem missing_focal_graph_witness :
    ("zz" ∉ keysOf abIndex ∧ "zz" ∉ tagsOf abIndex false [] ∧
        sentinel ∉ keysOf abIndex ∧ ("zz" : String) ≠ sentinel) ∧
      (graphNodes abIndex false [] "zz" ((0 : Nat) : Int) = [mkNode abIndex "zz"] ∧
        graphLinks abIndex false [] "zz" ((0 : Nat) : Int) = []) :=
  ⟨⟨by decide, by decide, by decide, by decide⟩,
    (missing_focal_graph abIndex false [] "zz" (by decide) (by decide) (by decide)
        (by decide)).1 0⟩

/-! ## C6: categorization -/

/-- C6 (corrected): categorization.  A node whose source path contains
the segment `Model/` and none of the higher-priority segments
(`contents/`, `Concept/`, `Dataset/`, `Library/`) — and whose id is not a
tag id — is categorized `modelTopic` and no other topic category; a
tag-derived node (id starting with `tags/`) always has category `tag`. -/
theorem node_categorization :
    (∀ (data : Index) (url p : String),
      (mkNode data url).sourcePath = some p →
      hasSegment (some p) "Model/" = true →
      hasSegment (some p) "contents/" = false →
      hasSegment (some p) "Concept/" = false →
      hasSegment (some p) "Dataset/" = false →
      hasSegment (some p) "Library/" = false →
      strStartsWith url "tags/" = false →
      nodeCategory (mkNode data url) = .modelTopic) ∧
    (∀ (data : Index) (url : String),
      strStartsWith url "tags/" = true → nodeCategory (mkNode data url) = .tag) := by
  constructor
  · intro data url p hpath hmodel hcontent hconcept hdataset hlibrary htag
    have hid : (mkNode data url).id = url := rfl
    have h1 : (mkNode data url).isContentNode = false := by
      have h : (mkNode data url).isContentNode
          = hasSegment (mkNode data url).sourcePath "contents/" := rfl
      rw [h, hpath]
      exact hcontent
    have h2 : (mkNode data url).isConceptTopicNode = false := by
      have h : (mkNode data url).isConceptTopicNode
          = hasSegment (mkNode data url).sourcePath "Concept/" := rfl
      rw [h, hpath]
      exact hconcept
    have h3 : (mkNode data url).isDatasetTopicNode = false := by
      have h : (mkNode data url).isDatasetTopicNode
          = hasSegment (mkNode data url).sourcePath "Dataset/" := rfl
      rw [h, hpath]
      exact hdataset
    have h4 : (mkNode data url).isLibraryTopicNode = false := by
      have h : (mkNode data url).isLibraryTopicNode
          = hasSegment (mkNode data url).sourcePath "Library/" := rfl
      rw [h, hpath]
      exact hlibrary
    have h5 : (mkNode data url).isModelTopicNode = true := by
      have h : (mkNode data url).isModelTopicNode
          = hasSegment (mkNode data url).sourcePath "Model/" := rfl
      rw [h, hpath]
      exact hmodel
    rw [nodeCategory, hid]
    simp [htag, h1, h2, h3, h4, h5]
  · intro data url htag
    have hid : (mkNode data url).id = url := rfl
    rw [nodeCategory, hid]
    simp [htag]

/-- C6 counterexample: a source path containing the `Model/` segment
together with a `Concept/` segment is categorized `conceptTopic`, not
`modelTopic` (and carries two topic flags at once), refuting the claim as
stated. -/
theorem node_categorization_cex :
    hasSegment (some "Model/Concept/x.md") "Model/" = true ∧
      (mkNode modelConceptIndex "m").sourcePath = some "Model/Concept/x.md" ∧
      (mkNode modelConceptIndex "m").isModelTopicNode = true ∧
      (mkNode modelConceptIndex "m").isConceptTopicNode = true ∧
      nodeCategory (mkNode modelConceptIndex "m") = .conceptTopic := by
  decide

/-- C6 witness: the amended theorem applied at a concrete one-topic
path and at a concrete tag node. -/
theorem node_categorization_witness :
    ((mkNode modelOnlyIndex "m").sourcePath = some "Topics/Model/GPT.md" ∧
        hasSegment (some "Topics/Model/GPT.md") "Model/" = true ∧
        nodeCategory (mkNode modelOnlyIndex "m") = .modelTopic) ∧
      nodeCategory (mkNode ([] : Index) "tags/ml") = .tag :=
  ⟨⟨by decide, by decide,
      node_categorization.1 modelOnlyIndex "m" "Topics/Model/GPT.md" (by decide) (by decide)
        (by decide) (by decide) (by decide) (by decide) (by decide)⟩,
    node_categorization.2 ([] : Index) "tags/ml" (by decide)⟩

/-! ## C5: hover highlighting -/

theorem hoveredNeighbours_aux (a : String) :
    ∀ (linksRD : List LinkRD) (acc : List String) (x : String),
      x ∈ linksRD.foldl
          (fun acc l =>
            if l.source = a ∨ l.target = a then addUniq (addUniq acc l.source) l.target
            else acc) acc
        ↔ x ∈ acc ∨
            ∃ l ∈ linksRD, (l.source = a ∨ l.target = a) ∧ (x = l.source ∨ x = l.target) := by
  intro linksRD
  induction linksRD with
  | nil => simp
  | cons q rest ih =>
    intro acc x
    rw [List.foldl_cons, ih]
    by_cases hq : q.source = a ∨ q.target = a
    · rw [if_pos hq, mem_addUniq, mem_addUniq]
      constructor
      · rintro (((h | rfl) | rfl) | ⟨l, hl, hcond⟩)
        · exact Or.inl h
        · exact Or.inr ⟨q, List.mem_cons_self _ _, hq, Or.inl rfl⟩
        · exact Or.inr ⟨q, List.mem_cons_self _ _, hq, Or.inr rfl⟩
        · exact Or.inr ⟨l, List.mem_cons_of_mem _ hl, hcond⟩
      · rintro (h | ⟨l, hl, hcond, hx⟩)
        · exact Or.inl (Or.inl (Or.inl h))
        · rcases List.mem_cons.mp hl with heq | hl'
          · subst heq
            rcases hx with rfl | rfl
            · exact Or.inl (Or.inl (Or.inr rfl))
            · exact Or.inl (Or.inr rfl)
          · exact Or.inr ⟨l, hl', hcond, hx⟩
    · rw [if_neg hq]
      constructor
      · rintro (h | ⟨l, hl, hcond⟩)
        · exact Or.inl h
        · exact Or.inr ⟨l, List.mem_cons_of_mem _ hl, hcond⟩
      · rintro (h | ⟨l, hl, hcond, hx⟩)
        · exact Or.inl h
        · rcases List.mem_cons.mp hl with heq | hl'
          · subst heq
            exact absurd hcond hq
          · exact Or.inr ⟨l, hl', hcond, hx⟩

theorem mem_hoveredNeighbours {linksRD : List LinkRD} {a x : String} :
    x ∈ hoveredNeighboursOf linksRD a ↔
      ∃ l ∈ linksRD, (l.source = a ∨ l.target = a) ∧ (x = l.source ∨ x = l.target) := by
  rw [hoveredNeighboursOf, hoveredNeighbours_aux]
  simp

theorem contains_hoveredNeighbours (linksRD : List LinkRD) (a x : String) :
    (hoveredNeighboursOf linksRD a).contains x = endpointOfIncident linksRD a x := by
  have h1 : (hoveredNeighboursOf linksRD a).contains x = true ↔
      endpointOfIncident linksRD a x = true := by
    constructor
    · intro hc
      obtain ⟨l, hl, hcond, hx⟩ := mem_hoveredNeighbours.mp (List.mem_of_elem_eq_true hc)
      rw [endpointOfIncident, List.any_eq_true]
      refine ⟨l, hl, ?_⟩
      rw [Bool.and_eq_true, Bool.or_eq_true, Bool.or_eq_true]
      constructor
      · rcases hcond with h | h
        · exact Or.inl (decide_eq_true h)
        · exact Or.inr (decide_eq_true h)
      · rcases hx with h | h
        · exact Or.inl (decide_eq_true h)
        · exact Or.inr (decide_eq_true h)
    · intro he
      rw [endpointOfIncident, List.any_eq_true] at he
      obtain ⟨l, hl, hp⟩ := he
      rw [Bool.and_eq_true, Bool.or_eq_true, Bool.or_eq_true] at hp
      apply List.elem_eq_true_of_mem
      apply mem_hoveredNeighbours.mpr
      refine ⟨l, hl, ?_, ?_⟩
      · rcases hp.1 with h | h
        · exact Or.inl (of_decide_eq_true h)
        · exact Or.inr (of_decide_eq_true h)
      · rcases hp.2 with h | h
        · exact Or.inl (of_decide_eq_true h)
        · exact Or.inr (of_decide_eq_true h)
  cases hb : (hoveredNeighboursOf linksRD a).contains x with
  | false =>
    cases he : endpointOfIncident linksRD a x with
    | false => rfl
    | true =>
      have hcontra := h1.mpr he
      rw [hb] at hcontra
      exact Bool.noConfusion hcontra
  | true =>
    cases he : endpointOfIncident linksRD a x with
    | false =>
      have hcontra := h1.mp hb
      rw [he] at hcontra
      exact Bool.noConfusion hcontra
    | true => rfl

/-- C5 (corrected): hover highlighting.  Hovering node `a` sets the
active flag on exactly the links incident to `a`, and on exactly the
nodes that are endpoints of some incident link — i.e. the nodes at the
other end of those links together with `a` itself whenever `a` has at
least one incident link; leaving (hover id becomes null) clears the
active flag on every node and every link. -/
theorem hover_highlighting (nodesRD : List NodeRD) (linksRD : List LinkRD) (a : String) :
    ((updateHoverInfo nodesRD linksRD (some a)).2
        = linksRD.map (fun l => { l with active := (l.source = a || l.target = a) })) ∧
    ((updateHoverInfo nodesRD linksRD (some a)).1
        = nodesRD.map (fun n => { n with active := endpointOfIncident linksRD a n.id })) ∧
    (updateHoverInfo nodesRD linksRD none
        = (nodesRD.map (fun n => { n with active := false }),
           linksRD.map (fun l => { l with active := false }))) := by
  refine ⟨rfl, ?_, rfl⟩
  simp only [updateHoverInfo, contains_hoveredNeighbours]

/-- C5 counterexample: hovering `"a"` over the single link `a—b` also
activates node `"a"` itself, although `"a"` is not at the other end of
any link incident to `"a"` — refuting the claim as stated. -/
theorem hover_highlighting_cex :
    (updateHoverInfo abNodesRD abLinksRD (some "a")).1 = [⟨"a", true⟩, ⟨"b", true⟩] ∧
      otherEndOfIncident abLinksRD "a" "a" = false := by
  decide

/-! ## C4: frame loop and tween bookkeeping -/

theorem animateStep_preserves (s : MountState) (hstop : s.stopAnimation = false)
    (hrun : s.animationRunning = true) (hpend : s.framePending = true)
    (hkeys : s.tweenKeys = ["hover", "link", "label"]) :
    (animateStep s).stopAnimation = false ∧ (animateStep s).animationRunning = true ∧
      (animateStep s).framePending = true ∧
      (animateStep s).tweenKeys = ["hover", "link", "label"] := by
  simp [animateStep, hstop, hpend, hkeys, hrun]

theorem animateIter_keeps : ∀ (n : Nat) (s : MountState),
    s.stopAnimation = false → s.animationRunning = true → s.framePending = true →
      s.tweenKeys = ["hover", "link", "label"] →
      (animateIter n s).stopAnimation = false ∧ (animateIter n s).animationRunning = true ∧
        (animateIter n s).framePending = true ∧
        (animateIter n s).tweenKeys = ["hover", "link", "label"] := by
  intro n
  induction n with
  | zero =>
    intro s h1 h2 h3 h4
    exact ⟨h1, h2, h3, h4⟩
  | succ n ih =>
    intro s h1 h2 h3 h4
    obtain ⟨g1, g2, g3, g4⟩ := animateStep_preserves s h1 h2 h3 h4
    exact ih (animateStep s) g1 g2 g3 g4

/-- C4 (code bug): the wrapper entries that `renderNodes`/`renderLinks`/
`renderLabels` store in the `tweens` map are never deleted — only
overwritten — so after the first hover `tweens.size === 0` never holds
again and `animate` reschedules itself on every frame forever, even
though the simulation is cooled (`alpha < alphaMin`) and every tween
interpolation has long completed.  The claimed stop condition is
unreachable after a hover. -/
theorem frame_loop_never_stops_after_hover (n : Nat) :
    cooledIdleMount.alphaLow = true ∧
      (animateIter n (hoverStep cooledIdleMount)).animationRunning = true ∧
      (animateIter n (hoverStep cooledIdleMount)).framePending = true ∧
      (animateIter n (hoverStep cooledIdleMount)).tweenKeys = ["hover", "link", "label"] := by
  have hstart : hoverStep cooledIdleMount =
      { stopAnimation := false, animationRunning := true, framePending := true,
        tweenKeys := ["hover", "link", "label"], alphaLow := true, popoverTimeout := false,
        hideTimeout := false, activePopover := false, keyListeners := true,
        appDestroyCount := 0 } := by decide
  rw [hstart]
  obtain ⟨_, g2, g3, g4⟩ := animateIter_keeps n
    { stopAnimation := false, animationRunning := true, framePending := true,
      tweenKeys := ["hover", "link", "label"], alphaLow := true, popoverTimeout := false,
      hideTimeout := false, activePopover := false, keyListeners := true,
      appDestroyCount := 0 }
    rfl rfl rfl rfl
  exact ⟨rfl, g2, g3, g4⟩

/-! ## C7: teardown -/

/-- C7 (corrected): double teardown.  A second invocation of the cleanup
closure is harmless for the naturally idempotent parts — the stop flag
stays set, popover timers and element stay cleared, the key listeners
stay detached, no frame-loop callback survives (a pending `animate` halts
without rescheduling and `ensureAnimating` refuses to restart) — but the
surface release `app.destroy()` is invoked again on every call rather
than being guarded, so resources are re-released. -/
theorem cleanup_twice (s : MountState) :
    (cleanupStep (cleanupStep s)).stopAnimation = true ∧
    (cleanupStep (cleanupStep s)).activePopover = false ∧
    (cleanupStep (cleanupStep s)).popoverTimeout = false ∧
    (cleanupStep (cleanupStep s)).hideTimeout = false ∧
    (cleanupStep (cleanupStep s)).keyListeners = false ∧
    (animateStep (cleanupStep (cleanupStep s))).framePending = false ∧
    ensureAnimatingStep (cleanupStep (cleanupStep s)) = cleanupStep (cleanupStep s) ∧
    (cleanupStep (cleanupStep s)).appDestroyCount = s.appDestroyCount + 2 := by
  by_cases hp : s.framePending = true
  · simp [cleanupStep, clearPopoverState, animateStep, ensureAnimatingStep, hp]
  · have hp' : s.framePending = false := by simpa using hp
    simp [cleanupStep, clearPopoverState, animateStep, ensureAnimatingStep, hp']

/-- C7 counterexample: the second cleanup call re-invokes the surface
release — `app.destroy()` runs twice — refuting "does not double-release
resources". -/
theorem cleanup_twice_cex :
    (cleanupStep (initialMount false)).appDestroyCount = 1 ∧
      (cleanupStep (cleanupStep (initialMount false))).appDestroyCount = 2 := by
  decide

/-! ## C8: popover error handling -/

/-- C8 (corrected): `showGraphPopover` aborts without mounting when the
fetch rejects, when the response content type does not start with
`text/html`, or when no previewable (`popover-hint`) element is found.
(A non-success HTTP status alone does not abort: the status is never
inspected.) -/
theorem popover_silent_abort (fetchResult : Option PopoverResponse)
    (h : fetchResult = none ∨
      ∃ r, fetchResult = some r ∧
        (listIsPre "text/html".toList (contentTypeMain r.contentType) = false ∨
          r.hintCount = 0)) :
    showGraphPopoverOutcome false fetchResult = .aborted := by
  rcases h with rfl | ⟨r, rfl, hr⟩
  · rfl
  · rcases hr with h | h
    · simp only [showGraphPopoverOutcome, Bool.false_eq_true, if_false]
      rw [if_pos (by rw [h]; simp)]
    · by_cases hct : listIsPre "text/html".toList (contentTypeMain r.contentType) = true
      · simp only [showGraphPopoverOutcome, Bool.false_eq_true, if_false]
        rw [if_neg (by simpa using hct), if_pos h]
      · simp only [showGraphPopoverOutcome, Bool.false_eq_true, if_false]
        rw [if_pos (by simpa using hct)]

/-- C8 counterexample: a non-success (HTTP 500) `text/html` response that
contains a previewable element still mounts a popover — the claim's
"non-success status" abort condition does not exist in the code. -/
theorem popover_silent_abort_cex :
    ¬ statusOk 500 ∧
      showGraphPopoverOutcome false (some ⟨500, some "text/html; charset=utf-8", 1⟩)
        = .mounted := by
  constructor
  · rintro ⟨_, h⟩
    omega
  · decide

/-- C8 witness: the amended theorem applied to a rejected fetch. -/
theorem popover_silent_abort_witness :
    showGraphPopoverOutcome false none = .aborted :=
  popover_silent_abort none (Or.inl rfl)

/-! ## C9: zoom handler -/

/-- C9 (corrected): for every zoom event, the transform scale stays in
the configured `[0.25, 4]` range; the recomputed label opacity
`max((k·opacityScale − 1)/3.75, 0)` is nonnegative, nondecreasing in the
zoom scale, and at most 1 whenever `k·opacityScale ≤ 4.75` (it is not
clamped above, so it exceeds 1 beyond that product); and the zoom-driven
opacity assignment leaves labels of active nodes unaffected. -/
theorem zoom_opacity_spec (k k2 opacityScale currentAlpha : ℚ) (hop : 0 ≤ opacityScale) :
    (0.25 ≤ d3ClampScale k ∧ d3ClampScale k ≤ 4) ∧
    0 ≤ scaleOpacityOf k opacityScale ∧
    (k ≤ k2 → scaleOpacityOf k opacityScale ≤ scaleOpacityOf k2 opacityScale) ∧
    (k * opacityScale ≤ 19 / 4 → scaleOpacityOf k opacityScale ≤ 1) ∧
    zoomLabelAlpha true currentAlpha k opacityScale = currentAlpha := by
  refine ⟨⟨le_max_left _ _, max_le (by norm_num) (min_le_left _ _)⟩,
    le_max_right _ _, ?_, ?_, rfl⟩
  · intro hk
    unfold scaleOpacityOf
    refine max_le_max ?_ le_rfl
    rw [div_le_div_iff₀ (by norm_num) (by norm_num)]
    refine mul_le_mul_of_nonneg_right ?_ (by norm_num)
    have hmul := mul_le_mul_of_nonneg_right hk hop
    linarith
  · intro hb
    unfold scaleOpacityOf
    refine max_le ?_ (by norm_num)
    rw [div_le_one (by norm_num)]
    have h375 : (3.75 : ℚ) = 15 / 4 := by norm_num
    rw [h375]
    linarith

/-- C9 counterexample: at zoom scale 4 (inside the configured range)
with `opacityScale = 2`, the recomputed opacity is `28/15 > 1`: the value
is clamped below at 0 but not above at 1. -/
theorem zoom_opacity_cex :
    d3ClampScale 4 = 4 ∧ (1 : ℚ) < scaleOpacityOf 4 2 := by
  constructor
  · norm_num [d3ClampScale]
  · rw [scaleOpacityOf, lt_max_iff]
    left
    norm_num

/-- C9 witness: the amended theorem applied at concrete values. -/
theorem zoom_opacity_witness :
    (0 : ℚ) ≤ 1 ∧
      ((0.25 ≤ d3ClampScale 1 ∧ d3ClampScale 1 ≤ 4) ∧
        0 ≤ scaleOpacityOf 1 1 ∧
        ((1 : ℚ) ≤ 2 → scaleOpacityOf 1 1 ≤ scaleOpacityOf 2 1) ∧
        ((1 : ℚ) * 1 ≤ 19 / 4 → scaleOpacityOf 1 1 ≤ 1) ∧
        zoomLabelAlpha true (1 / 2) 1 1 = 1 / 2) :=
  ⟨by norm_num, zoom_opacity_spec 1 2 1 (1 / 2) (by norm_num)⟩

end DsviewGraph
